import Mathlib

/-!
Shallow embedding of the metadata-assisted substitution cipher
(`chipher.py`): character classification, the four per-class shift rules,
the encoder, the metadata-guided inverse, the brute-force fallback with
ambiguity tracking, and the equality verifier.  Texts are lists of
characters; the two shift parameters are integers; Python's `%` on the
positive modulus 26 agrees with `Int.emod`.
-/

namespace Cipher

/-- `is_lower` from the source: ASCII range test `'a' <= c <= 'z'`. -/
def is_lower (c : Char) : Bool := decide ('a' ≤ c ∧ c ≤ 'z')

/-- `is_upper` from the source: ASCII range test `'A' <= c <= 'Z'`. -/
def is_upper (c : Char) : Bool := decide ('A' ≤ c ∧ c ≤ 'Z')

/-- `shift_char` from the source: shift an ASCII letter by `shift` positions
with wrap-around inside its own case alphabet; non-letters are returned
unchanged. -/
def shift_char (c : Char) (shift : Int) : Char :=
  if is_lower c then
    Char.ofNat ((((c.toNat : Int) - (Char.toNat 'a' : Int) + shift) % 26
      + (Char.toNat 'a' : Int)).toNat)
  else if is_upper c then
    Char.ofNat ((((c.toNat : Int) - (Char.toNat 'A' : Int) + shift) % 26
      + (Char.toNat 'A' : Int)).toNat)
  else c

/-- `classify_plain` from the source: the five metadata codes,
`"L1"` = a–m, `"L2"` = n–z, `"U1"` = A–M, `"U2"` = N–Z, `"O"` = other. -/
def classify_plain (c : Char) : String :=
  if is_lower c then
    if 'a' ≤ c ∧ c ≤ 'm' then "L1" else "L2"
  else if is_upper c then
    if 'A' ≤ c ∧ c ≤ 'M' then "U1" else "U2"
  else "O"

/-- `encrypt_char_and_meta` from the source: encrypt one character and
return the cipher character together with its metadata code. -/
def encrypt_char_and_meta (c : Char) (shift1 shift2 : Int) : Char × String :=
  let code := classify_plain c
  let s1 := shift1 % 26
  let s2 := shift2 % 26
  if code = "L1" then (shift_char c ((s1 * s2) % 26), code)
  else if code = "L2" then (shift_char c (-((s1 + s2) % 26)), code)
  else if code = "U1" then (shift_char c (-s1), code)
  else if code = "U2" then (shift_char c ((s2 * s2) % 26), code)
  else (c, code)

/-- `inverse_by_meta` from the source: undo a single character using its
saved metadata code. -/
def inverse_by_meta (cipher_c : Char) (meta_code : String) (shift1 shift2 : Int) : Char :=
  let s1 := shift1 % 26
  let s2 := shift2 % 26
  if meta_code = "L1" then shift_char cipher_c (-((s1 * s2) % 26))
  else if meta_code = "L2" then shift_char cipher_c ((s1 + s2) % 26)
  else if meta_code = "U1" then shift_char cipher_c s1
  else if meta_code = "U2" then shift_char cipher_c (-((s2 * s2) % 26))
  else cipher_c

/-- The forward shift rule per class: the branches of `encrypt_char_and_meta`
with the class supplied explicitly instead of computed by `classify_plain`
(the agreement is proved in `encrypt_eq_forward_by_meta` below). -/
def forward_by_meta (c : Char) (meta_code : String) (shift1 shift2 : Int) : Char :=
  let s1 := shift1 % 26
  let s2 := shift2 % 26
  if meta_code = "L1" then shift_char c ((s1 * s2) % 26)
  else if meta_code = "L2" then shift_char c (-((s1 + s2) % 26))
  else if meta_code = "U1" then shift_char c (-s1)
  else if meta_code = "U2" then shift_char c ((s2 * s2) % 26)
  else c

/-- The per-character loop of `encrypt_file` (file I/O stripped): the cipher
text and the metadata sequence produced from a raw text. -/
def encrypt_file (raw : List Char) (shift1 shift2 : Int) : List Char × List String :=
  (raw.map fun ch => (encrypt_char_and_meta ch shift1 shift2).1,
   raw.map fun ch => (encrypt_char_and_meta ch shift1 shift2).2)

/-- The metadata branch of `decrypt_file` (file I/O stripped):
`[inverse_by_meta(c, m, shift1, shift2) for c, m in zip(enc_text, meta)]`. -/
def decrypt_with_meta (enc_text : List Char) (meta : List String) (shift1 shift2 : Int) :
    List Char :=
  (enc_text.zip meta).map fun cm => inverse_by_meta cm.1 cm.2 shift1 shift2

/-- `lower_alphabet` from the source: the characters `a`..`z`. -/
def lower_alphabet : List Char := (List.range' (Char.toNat 'a') 26).map Char.ofNat

/-- `upper_alphabet` from the source: the characters `A`..`Z`. -/
def upper_alphabet : List Char := (List.range' (Char.toNat 'A') 26).map Char.ofNat

/-- The lowercase candidate scan of `brute_force_decrypt`, at already-reduced
shifts: all lowercase letters whose forward encryption (by their own class)
equals the cipher character. -/
def bf_candidates_lower (c : Char) (s1 s2 : Int) : List Char :=
  lower_alphabet.filter fun p =>
    (if classify_plain p = "L1" then shift_char p ((s1 * s2) % 26)
     else shift_char p (-((s1 + s2) % 26))) = c

/-- The uppercase candidate scan of `brute_force_decrypt`, at already-reduced
shifts. -/
def bf_candidates_upper (c : Char) (s1 s2 : Int) : List Char :=
  upper_alphabet.filter fun p =>
    (if classify_plain p = "U1" then shift_char p (-s1)
     else shift_char p ((s2 * s2) % 26)) = c

/-- The candidate list for one cipher character, dispatching on its case as
the main loop of `brute_force_decrypt` does (empty for non-letters). -/
def bf_cands (s1 s2 : Int) (c : Char) : List Char :=
  if is_lower c then bf_candidates_lower c s1 s2
  else if is_upper c then bf_candidates_upper c s1 s2
  else []

/-- The indexed main loop of `brute_force_decrypt`, accumulating the
best-effort decryption and the ambiguity records. -/
def bf_go (s1 s2 : Int) : Nat → List Char → List Char × List (Nat × Char × List Char)
  | _, [] => ([], [])
  | i, c :: rest =>
    let r := bf_go s1 s2 (i + 1) rest
    if is_lower c then
      let candidates := bf_candidates_lower c s1 s2
      if candidates.length = 1 then (candidates.headD c :: r.1, r.2)
      else (candidates.headD c :: r.1, (i, c, candidates) :: r.2)
    else if is_upper c then
      let candidates := bf_candidates_upper c s1 s2
      if candidates.length = 1 then (candidates.headD c :: r.1, r.2)
      else (candidates.headD c :: r.1, (i, c, candidates) :: r.2)
    else (c :: r.1, r.2)

/-- `brute_force_decrypt` from the source: reduce the shifts mod 26 once,
then run the per-position candidate search from index 0. -/
def brute_force_decrypt (enc_text : List Char) (shift1 shift2 : Int) :
    List Char × List (Nat × Char × List Char) :=
  bf_go (shift1 % 26) (shift2 % 26) 0 enc_text

/-- The comparison at the heart of `verify_files` (file I/O stripped):
`raw == dec` decides Match (`true`) versus Mismatch (`false`). -/
def verify_files (raw dec : List Char) : Bool := raw == dec

/-- Modelled from the spec: on Mismatch the verifier reports the first
differing region.  The source delegates the textual diff to
`difflib.unified_diff`, standard-library code not part of this repository;
this function computes the first position at which the two texts hold
different characters, with those two characters. -/
def first_diff : List Char → List Char → Option (Nat × Char × Char)
  | a :: as, b :: bs =>
    if a = b then (first_diff as bs).map fun t => (t.1 + 1, t.2) else some (0, a, b)
  | _, _ => none

/-! ### Bridge lemmas between `Char` and `Nat` arithmetic -/

theorem char_le_iff {a b : Char} : a ≤ b ↔ a.toNat ≤ b.toNat := Iff.rfl

theorem char_toNat_inj {a b : Char} (h : a.toNat = b.toNat) : a = b := by
  have := congrArg Char.ofNat h
  rwa [Char.ofNat_toNat, Char.ofNat_toNat] at this

theorem toNat_ofNat_valid {n : Nat} (h : n < 55296) : (Char.ofNat n).toNat = n := by
  rw [Char.ofNat, dif_pos (Or.inl h)]
  simp [Char.ofNatAux, Char.toNat, UInt32.toNat]

theorem is_lower_iff {c : Char} : is_lower c = true ↔ 97 ≤ c.toNat ∧ c.toNat ≤ 122 := by
  simp [is_lower, char_le_iff]

theorem is_upper_iff {c : Char} : is_upper c = true ↔ 65 ≤ c.toNat ∧ c.toNat ≤ 90 := by
  simp [is_upper, char_le_iff]

/-! ### Arithmetic facts about `shift_char` -/

theorem toNat_shift_char_lower {c : Char} (h : is_lower c = true) (k : Int) :
    ((shift_char c k).toNat : Int) = ((c.toNat : Int) - 97 + k) % 26 + 97 := by
  have ha : (Char.toNat 'a' : Int) = 97 := rfl
  rw [shift_char, if_pos h, ha]
  have hnn : (0 : Int) ≤ ((c.toNat : Int) - 97 + k) % 26 := Int.emod_nonneg _ (by norm_num)
  have hlt : ((c.toNat : Int) - 97 + k) % 26 < 26 := Int.emod_lt_of_pos _ (by norm_num)
  rw [toNat_ofNat_valid (by omega)]
  omega

theorem toNat_shift_char_upper {c : Char} (hl : is_lower c = false) (h : is_upper c = true)
    (k : Int) : ((shift_char c k).toNat : Int) = ((c.toNat : Int) - 65 + k) % 26 + 65 := by
  have hA : (Char.toNat 'A' : Int) = 65 := rfl
  rw [shift_char, if_neg (by simp [hl]), if_pos h, hA]
  have hnn : (0 : Int) ≤ ((c.toNat : Int) - 65 + k) % 26 := Int.emod_nonneg _ (by norm_num)
  have hlt : ((c.toNat : Int) - 65 + k) % 26 < 26 := Int.emod_lt_of_pos _ (by norm_num)
  rw [toNat_ofNat_valid (by omega)]
  omega

theorem lower_not_upper {c : Char} (h : is_lower c = true) : is_upper c = false := by
  rcases is_lower_iff.mp h with ⟨h1, h2⟩
  rcases hu : is_upper c with _ | _
  · rfl
  · rcases is_upper_iff.mp hu with ⟨h3, h4⟩; omega

theorem upper_not_lower {c : Char} (h : is_upper c = true) : is_lower c = false := by
  rcases is_upper_iff.mp h with ⟨h1, h2⟩
  rcases hl : is_lower c with _ | _
  · rfl
  · rcases is_lower_iff.mp hl with ⟨h3, h4⟩; omega

theorem is_lower_shift_char {c : Char} (h : is_lower c = true) (k : Int) :
    is_lower (shift_char c k) = true := by
  have := toNat_shift_char_lower h k
  have hnn : (0 : Int) ≤ ((c.toNat : Int) - 97 + k) % 26 := Int.emod_nonneg _ (by norm_num)
  have hlt : ((c.toNat : Int) - 97 + k) % 26 < 26 := Int.emod_lt_of_pos _ (by norm_num)
  exact is_lower_iff.mpr (by omega)

theorem is_upper_shift_char {c : Char} (h : is_upper c = true) (k : Int) :
    is_upper (shift_char c k) = true := by
  have := toNat_shift_char_upper (upper_not_lower h) h k
  have hnn : (0 : Int) ≤ ((c.toNat : Int) - 65 + k) % 26 := Int.emod_nonneg _ (by norm_num)
  have hlt : ((c.toNat : Int) - 65 + k) % 26 < 26 := Int.emod_lt_of_pos _ (by norm_num)
  exact is_upper_iff.mpr (by omega)

theorem shift_char_other {c : Char} (hl : is_lower c = false) (hu : is_upper c = false)
    (k : Int) : shift_char c k = c := by
  rw [shift_char, if_neg (by simp [hl]), if_neg (by simp [hu])]

/-- Two successive shifts on a lowercase letter whose amounts sum to a
multiple of 26 cancel. -/
theorem shift_shift_cancel_lower {c : Char} (h : is_lower c = true) {a b : Int}
    (hab : (a + b) % 26 = 0) : shift_char (shift_char c a) b = c := by
  apply char_toNat_inj
  have h1 := toNat_shift_char_lower h a
  have h2 := toNat_shift_char_lower (is_lower_shift_char h a) b
  rcases is_lower_iff.mp h with ⟨hl, hu⟩
  omega

/-- Two successive shifts on an uppercase letter whose amounts sum to a
multiple of 26 cancel. -/
theorem shift_shift_cancel_upper {c : Char} (h : is_upper c = true) {a b : Int}
    (hab : (a + b) % 26 = 0) : shift_char (shift_char c a) b = c := by
  apply char_toNat_inj
  have h1 := toNat_shift_char_upper (upper_not_lower h) h a
  have h2 := toNat_shift_char_upper (upper_not_lower (is_upper_shift_char h a))
    (is_upper_shift_char h a) b
  rcases is_upper_iff.mp h with ⟨hl, hu⟩
  omega

/-! ### Characterizing the classifier -/

theorem char_and_le_m {c : Char} : ('a' ≤ c ∧ c ≤ 'm') ↔ (97 ≤ c.toNat ∧ c.toNat ≤ 109) := by
  constructor
  · rintro ⟨x, y⟩; exact ⟨char_le_iff.mp x, char_le_iff.mp y⟩
  · rintro ⟨x, y⟩; exact ⟨char_le_iff.mpr x, char_le_iff.mpr y⟩

theorem char_and_le_M {c : Char} : ('A' ≤ c ∧ c ≤ 'M') ↔ (65 ≤ c.toNat ∧ c.toNat ≤ 77) := by
  constructor
  · rintro ⟨x, y⟩; exact ⟨char_le_iff.mp x, char_le_iff.mp y⟩
  · rintro ⟨x, y⟩; exact ⟨char_le_iff.mpr x, char_le_iff.mpr y⟩

theorem classify_of_L1 {c : Char} (h : 97 ≤ c.toNat ∧ c.toNat ≤ 109) :
    classify_plain c = "L1" := by
  have h1 : is_lower c = true := is_lower_iff.mpr (by omega)
  rw [classify_plain, if_pos h1, if_pos (char_and_le_m.mpr h)]

theorem classify_of_L2 {c : Char} (h : 110 ≤ c.toNat ∧ c.toNat ≤ 122) :
    classify_plain c = "L2" := by
  have h1 : is_lower c = true := is_lower_iff.mpr (by omega)
  have h2 : ¬('a' ≤ c ∧ c ≤ 'm') := fun hh => by have := char_and_le_m.mp hh; omega
  rw [classify_plain, if_pos h1, if_neg h2]

theorem classify_of_U1 {c : Char} (h : 65 ≤ c.toNat ∧ c.toNat ≤ 77) :
    classify_plain c = "U1" := by
  have h1 : ¬(is_lower c = true) := by rw [is_lower_iff]; omega
  have h2 : is_upper c = true := is_upper_iff.mpr (by omega)
  rw [classify_plain, if_neg h1, if_pos h2, if_pos (char_and_le_M.mpr h)]

theorem classify_of_U2 {c : Char} (h : 78 ≤ c.toNat ∧ c.toNat ≤ 90) :
    classify_plain c = "U2" := by
  have h1 : ¬(is_lower c = true) := by rw [is_lower_iff]; omega
  have h2 : is_upper c = true := is_upper_iff.mpr (by omega)
  have h3 : ¬('A' ≤ c ∧ c ≤ 'M') := fun hh => by have := char_and_le_M.mp hh; omega
  rw [classify_plain, if_neg h1, if_pos h2, if_neg h3]

theorem classify_of_O {c : Char} (hl : is_lower c = false) (hu : is_upper c = false) :
    classify_plain c = "O" := by
  rw [classify_plain, if_neg (by simp [hl]), if_neg (by simp [hu])]

/-- Every character falls into exactly one of the five classes, with the
matching code-point range. -/
theorem classify_total (c : Char) :
    (classify_plain c = "L1" ∧ 97 ≤ c.toNat ∧ c.toNat ≤ 109) ∨
    (classify_plain c = "L2" ∧ 110 ≤ c.toNat ∧ c.toNat ≤ 122) ∨
    (classify_plain c = "U1" ∧ 65 ≤ c.toNat ∧ c.toNat ≤ 77) ∨
    (classify_plain c = "U2" ∧ 78 ≤ c.toNat ∧ c.toNat ≤ 90) ∨
    (classify_plain c = "O" ∧ is_lower c = false ∧ is_upper c = false) := by
  by_cases hL : is_lower c = true
  · rcases is_lower_iff.mp hL with ⟨a1, a2⟩
    by_cases hm : c.toNat ≤ 109
    · exact Or.inl ⟨classify_of_L1 ⟨a1, hm⟩, a1, hm⟩
    · exact Or.inr (Or.inl ⟨classify_of_L2 ⟨by omega, a2⟩, by omega, a2⟩)
  · have hLf : is_lower c = false := by
      rcases h : is_lower c with _ | _
      · rfl
      · exact absurd h hL
    by_cases hU : is_upper c = true
    · rcases is_upper_iff.mp hU with ⟨a1, a2⟩
      by_cases hM : c.toNat ≤ 77
      · exact Or.inr (Or.inr (Or.inl ⟨classify_of_U1 ⟨a1, hM⟩, a1, hM⟩))
      · exact Or.inr (Or.inr (Or.inr (Or.inl ⟨classify_of_U2 ⟨by omega, a2⟩, by omega, a2⟩)))
    · have hUf : is_upper c = false := by
        rcases h : is_upper c with _ | _
        · rfl
        · exact absurd h hU
      exact Or.inr (Or.inr (Or.inr (Or.inr ⟨classify_of_O hLf hUf, hLf, hUf⟩)))

theorem classify_eq_L1 {c : Char} :
    classify_plain c = "L1" ↔ 97 ≤ c.toNat ∧ c.toNat ≤ 109 := by
  refine ⟨fun h => ?_, classify_of_L1⟩
  rcases classify_total c with ⟨_, h2⟩ | ⟨h1, _⟩ | ⟨h1, _⟩ | ⟨h1, _⟩ | ⟨h1, _⟩
  · exact h2
  all_goals rw [h] at h1; exact absurd h1 (by decide)

theorem classify_eq_L2 {c : Char} :
    classify_plain c = "L2" ↔ 110 ≤ c.toNat ∧ c.toNat ≤ 122 := by
  refine ⟨fun h => ?_, classify_of_L2⟩
  rcases classify_total c with ⟨h1, _⟩ | ⟨_, h2⟩ | ⟨h1, _⟩ | ⟨h1, _⟩ | ⟨h1, _⟩
  · rw [h] at h1; exact absurd h1 (by decide)
  · exact h2
  all_goals rw [h] at h1; exact absurd h1 (by decide)

theorem classify_eq_U1 {c : Char} :
    classify_plain c = "U1" ↔ 65 ≤ c.toNat ∧ c.toNat ≤ 77 := by
  refine ⟨fun h => ?_, classify_of_U1⟩
  rcases classify_total c with ⟨h1, _⟩ | ⟨h1, _⟩ | ⟨_, h2⟩ | ⟨h1, _⟩ | ⟨h1, _⟩
  · rw [h] at h1; exact absurd h1 (by decide)
  · rw [h] at h1; exact absurd h1 (by decide)
  · exact h2
  all_goals rw [h] at h1; exact absurd h1 (by decide)

theorem classify_eq_U2 {c : Char} :
    classify_plain c = "U2" ↔ 78 ≤ c.toNat ∧ c.toNat ≤ 90 := by
  refine ⟨fun h => ?_, classify_of_U2⟩
  rcases classify_total c with ⟨h1, _⟩ | ⟨h1, _⟩ | ⟨h1, _⟩ | ⟨_, h2⟩ | ⟨h1, _⟩
  · rw [h] at h1; exact absurd h1 (by decide)
  · rw [h] at h1; exact absurd h1 (by decide)
  · rw [h] at h1; exact absurd h1 (by decide)
  · exact h2
  · rw [h] at h1; exact absurd h1 (by decide)

theorem classify_eq_O {c : Char} :
    classify_plain c = "O" ↔ is_lower c = false ∧ is_upper c = false := by
  constructor
  · intro h
    rcases classify_total c with ⟨h1, _⟩ | ⟨h1, _⟩ | ⟨h1, _⟩ | ⟨h1, _⟩ | ⟨_, h2⟩
    · rw [h] at h1; exact absurd h1 (by decide)
    · rw [h] at h1; exact absurd h1 (by decide)
    · rw [h] at h1; exact absurd h1 (by decide)
    · rw [h] at h1; exact absurd h1 (by decide)
    · exact h2
  · rintro ⟨hl, hu⟩
    exact classify_of_O hl hu

/-! ### Reducing the encoder and the two by-class transforms -/

theorem encrypt_snd (c : Char) (sh1 sh2 : Int) :
    (encrypt_char_and_meta c sh1 sh2).2 = classify_plain c := by
  rcases classify_total c with ⟨h, _⟩ | ⟨h, _⟩ | ⟨h, _⟩ | ⟨h, _⟩ | ⟨h, _⟩ <;>
    simp [encrypt_char_and_meta, h]

theorem encrypt_eq_forward_by_meta (c : Char) (sh1 sh2 : Int) :
    encrypt_char_and_meta c sh1 sh2 =
      (forward_by_meta c (classify_plain c) sh1 sh2, classify_plain c) := by
  rcases classify_total c with ⟨h, _⟩ | ⟨h, _⟩ | ⟨h, _⟩ | ⟨h, _⟩ | ⟨h, _⟩ <;>
    simp [encrypt_char_and_meta, forward_by_meta, h]

theorem forward_meta_L1 (c : Char) (sh1 sh2 : Int) :
    forward_by_meta c "L1" sh1 sh2 = shift_char c ((sh1 % 26 * (sh2 % 26)) % 26) := rfl

theorem forward_meta_L2 (c : Char) (sh1 sh2 : Int) :
    forward_by_meta c "L2" sh1 sh2 = shift_char c (-((sh1 % 26 + sh2 % 26) % 26)) := rfl

theorem forward_meta_U1 (c : Char) (sh1 sh2 : Int) :
    forward_by_meta c "U1" sh1 sh2 = shift_char c (-(sh1 % 26)) := rfl

theorem forward_meta_U2 (c : Char) (sh1 sh2 : Int) :
    forward_by_meta c "U2" sh1 sh2 = shift_char c ((sh2 % 26 * (sh2 % 26)) % 26) := rfl

theorem inverse_meta_L1 (c : Char) (sh1 sh2 : Int) :
    inverse_by_meta c "L1" sh1 sh2 = shift_char c (-((sh1 % 26 * (sh2 % 26)) % 26)) := rfl

theorem inverse_meta_L2 (c : Char) (sh1 sh2 : Int) :
    inverse_by_meta c "L2" sh1 sh2 = shift_char c ((sh1 % 26 + sh2 % 26) % 26) := rfl

theorem inverse_meta_U1 (c : Char) (sh1 sh2 : Int) :
    inverse_by_meta c "U1" sh1 sh2 = shift_char c (sh1 % 26) := rfl

theorem inverse_meta_U2 (c : Char) (sh1 sh2 : Int) :
    inverse_by_meta c "U2" sh1 sh2 = shift_char c (-((sh2 % 26 * (sh2 % 26)) % 26)) := rfl

theorem inverse_meta_O (c : Char) (sh1 sh2 : Int) :
    inverse_by_meta c "O" sh1 sh2 = c := rfl

/-- Undoing one encrypted character with its recorded metadata restores it. -/
theorem inverse_encrypt_char (c : Char) (sh1 sh2 : Int) :
    inverse_by_meta (encrypt_char_and_meta c sh1 sh2).1
      (encrypt_char_and_meta c sh1 sh2).2 sh1 sh2 = c := by
  rcases classify_total c with ⟨h, hr⟩ | ⟨h, hr⟩ | ⟨h, hr⟩ | ⟨h, hr⟩ | ⟨h, hl, hu⟩
  · have hlow : is_lower c = true := is_lower_iff.mpr (by omega)
    rw [encrypt_eq_forward_by_meta, h, forward_meta_L1, inverse_meta_L1]
    exact shift_shift_cancel_lower hlow (by omega)
  · have hlow : is_lower c = true := is_lower_iff.mpr (by omega)
    rw [encrypt_eq_forward_by_meta, h, forward_meta_L2, inverse_meta_L2]
    exact shift_shift_cancel_lower hlow (by omega)
  · have hupp : is_upper c = true := is_upper_iff.mpr (by omega)
    rw [encrypt_eq_forward_by_meta, h, forward_meta_U1, inverse_meta_U1]
    exact shift_shift_cancel_upper hupp (by omega)
  · have hupp : is_upper c = true := is_upper_iff.mpr (by omega)
    rw [encrypt_eq_forward_by_meta, h, forward_meta_U2, inverse_meta_U2]
    exact shift_shift_cancel_upper hupp (by omega)
  · rw [encrypt_eq_forward_by_meta, h]
    rfl

theorem is_lower_shift_eq (c : Char) (k : Int) : is_lower (shift_char c k) = is_lower c := by
  rcases hl : is_lower c with _ | _
  · rcases hu : is_upper c with _ | _
    · rw [shift_char_other hl hu, hl]
    · exact upper_not_lower (is_upper_shift_char hu k)
  · rw [is_lower_shift_char hl k]

theorem is_upper_shift_eq (c : Char) (k : Int) : is_upper (shift_char c k) = is_upper c := by
  rcases hu : is_upper c with _ | _
  · rcases hl : is_lower c with _ | _
    · rw [shift_char_other hl hu, hu]
    · exact lower_not_upper (is_lower_shift_char hl k)
  · rw [is_upper_shift_char hu k]

theorem is_lower_encrypt (c : Char) (sh1 sh2 : Int) :
    is_lower ((encrypt_char_and_meta c sh1 sh2).1) = is_lower c := by
  rcases classify_total c with ⟨hc, hr⟩ | ⟨hc, hr⟩ | ⟨hc, hr⟩ | ⟨hc, hr⟩ | ⟨hc, hl, hu⟩
  · rw [encrypt_eq_forward_by_meta, hc]
    exact is_lower_shift_eq c _
  · rw [encrypt_eq_forward_by_meta, hc]
    exact is_lower_shift_eq c _
  · rw [encrypt_eq_forward_by_meta, hc]
    exact is_lower_shift_eq c _
  · rw [encrypt_eq_forward_by_meta, hc]
    exact is_lower_shift_eq c _
  · rw [encrypt_eq_forward_by_meta, hc]
    rfl

theorem is_upper_encrypt (c : Char) (sh1 sh2 : Int) :
    is_upper ((encrypt_char_and_meta c sh1 sh2).1) = is_upper c := by
  rcases classify_total c with ⟨hc, hr⟩ | ⟨hc, hr⟩ | ⟨hc, hr⟩ | ⟨hc, hr⟩ | ⟨hc, hl, hu⟩
  · rw [encrypt_eq_forward_by_meta, hc]
    exact is_upper_shift_eq c _
  · rw [encrypt_eq_forward_by_meta, hc]
    exact is_upper_shift_eq c _
  · rw [encrypt_eq_forward_by_meta, hc]
    exact is_upper_shift_eq c _
  · rw [encrypt_eq_forward_by_meta, hc]
    exact is_upper_shift_eq c _
  · rw [encrypt_eq_forward_by_meta, hc]
    rfl

/-! ### The two alphabets -/

theorem mem_lower_alphabet {p : Char} :
    p ∈ lower_alphabet ↔ 97 ≤ p.toNat ∧ p.toNat ≤ 122 := by
  have ha97 : Char.toNat 'a' = 97 := rfl
  rw [lower_alphabet, List.mem_map]
  constructor
  · rintro ⟨a, ha, rfl⟩
    rw [List.mem_range'] at ha
    obtain ⟨i, hi, rfl⟩ := ha
    rw [toNat_ofNat_valid (by omega)]
    omega
  · rintro ⟨h1, h2⟩
    refine ⟨p.toNat, ?_, Char.ofNat_toNat p⟩
    rw [List.mem_range']
    exact ⟨p.toNat - 97, by omega, by omega⟩

theorem mem_upper_alphabet {p : Char} :
    p ∈ upper_alphabet ↔ 65 ≤ p.toNat ∧ p.toNat ≤ 90 := by
  have hA65 : Char.toNat 'A' = 65 := rfl
  rw [upper_alphabet, List.mem_map]
  constructor
  · rintro ⟨a, ha, rfl⟩
    rw [List.mem_range'] at ha
    obtain ⟨i, hi, rfl⟩ := ha
    rw [toNat_ofNat_valid (by omega)]
    omega
  · rintro ⟨h1, h2⟩
    refine ⟨p.toNat, ?_, Char.ofNat_toNat p⟩
    rw [List.mem_range']
    exact ⟨p.toNat - 65, by omega, by omega⟩

theorem char_lt_iff {a b : Char} : a < b ↔ a.toNat < b.toNat := Iff.rfl

theorem ofNat_lt_ofNat {a b : Nat} (ha : a < 55296) (hb : b < 55296) (h : a < b) :
    Char.ofNat a < Char.ofNat b := by
  rw [char_lt_iff, toNat_ofNat_valid ha, toNat_ofNat_valid hb]
  exact h

theorem pairwise_lt_map_ofNat_range' {s n : Nat} (hbound : s + n ≤ 55296) :
    List.Pairwise (· < ·) ((List.range' s n).map Char.ofNat) := by
  rw [List.pairwise_map]
  refine List.Pairwise.imp_of_mem ?_ (List.pairwise_lt_range' s n 1 (by simp))
  intro a b ha hb hab
  rw [List.mem_range'] at ha hb
  obtain ⟨i, hi, rfl⟩ := ha
  obtain ⟨j, hj, rfl⟩ := hb
  exact ofNat_lt_ofNat (by omega) (by omega) hab

theorem pairwise_lt_lower_alphabet : List.Pairwise (· < ·) lower_alphabet :=
  pairwise_lt_map_ofNat_range' (by decide)

theorem pairwise_lt_upper_alphabet : List.Pairwise (· < ·) upper_alphabet :=
  pairwise_lt_map_ofNat_range' (by decide)

theorem nodup_lower_alphabet : lower_alphabet.Nodup :=
  pairwise_lt_lower_alphabet.imp fun h => Char.ne_of_lt h

theorem nodup_upper_alphabet : upper_alphabet.Nodup :=
  pairwise_lt_upper_alphabet.imp fun h => Char.ne_of_lt h

/-- A duplicate-free list on which `f` is injective has at most one element
in any fiber of `f`. -/
theorem length_filter_fiber_le_one {α β : Type} [DecidableEq β] {l : List α} {f : α → β}
    {c : β} (hnd : l.Nodup) (hinj : ∀ x ∈ l, ∀ y ∈ l, f x = f y → x = y) :
    (l.filter fun x => f x = c).length ≤ 1 := by
  rcases hfl : l.filter (fun x => f x = c) with _ | ⟨x, _ | ⟨y, t⟩⟩
  · simp
  · simp
  · exfalso
    have hx : x ∈ l.filter (fun x => f x = c) := by
      rw [hfl]; exact List.mem_cons_self _ _
    have hy : y ∈ l.filter (fun x => f x = c) := by
      rw [hfl]; exact List.mem_cons_of_mem _ (List.mem_cons_self _ _)
    have hnd2 : (l.filter (fun x => f x = c)).Nodup := hnd.filter _
    rw [hfl] at hnd2
    rcases List.nodup_cons.mp hnd2 with ⟨hxnot, _⟩
    have hxy : x ≠ y := fun he => hxnot (he ▸ List.mem_cons_self _ _)
    have hx' := List.mem_filter.mp hx
    have hy' := List.mem_filter.mp hy
    exact hxy (hinj x hx'.1 y hy'.1
      ((of_decide_eq_true hx'.2).trans (of_decide_eq_true hy'.2).symm))

/-- `shift_char` by a fixed amount is injective on lowercase letters. -/
theorem shift_char_inj_lower {x y : Char} (hx : is_lower x = true) (hy : is_lower y = true)
    {k : Int} (h : shift_char x k = shift_char y k) : x = y := by
  have h1 := toNat_shift_char_lower hx k
  have h2 := toNat_shift_char_lower hy k
  rw [h] at h1
  rcases is_lower_iff.mp hx with ⟨a1, a2⟩
  rcases is_lower_iff.mp hy with ⟨b1, b2⟩
  exact char_toNat_inj (by omega)

/-- `shift_char` by a fixed amount is injective on uppercase letters. -/
theorem shift_char_inj_upper {x y : Char} (hx : is_upper x = true) (hy : is_upper y = true)
    {k : Int} (h : shift_char x k = shift_char y k) : x = y := by
  have h1 := toNat_shift_char_upper (upper_not_lower hx) hx k
  have h2 := toNat_shift_char_upper (upper_not_lower hy) hy k
  rw [h] at h1
  rcases is_upper_iff.mp hx with ⟨a1, a2⟩
  rcases is_upper_iff.mp hy with ⟨b1, b2⟩
  exact char_toNat_inj (by omega)

/-! ### The brute-force candidate scans -/

theorem encrypt_fst_lower {p : Char} (hp : is_lower p = true) (sh1 sh2 : Int) :
    (encrypt_char_and_meta p sh1 sh2).1 =
      (if classify_plain p = "L1" then shift_char p ((sh1 % 26 * (sh2 % 26)) % 26)
       else shift_char p (-((sh1 % 26 + sh2 % 26) % 26))) := by
  rcases classify_total p with ⟨hc, hr⟩ | ⟨hc, hr⟩ | ⟨hc, hr⟩ | ⟨hc, hr⟩ | ⟨hc, hl, hu⟩
  · rw [encrypt_eq_forward_by_meta, hc, if_pos rfl]
    rfl
  · rw [encrypt_eq_forward_by_meta, hc, if_neg (by decide)]
    rfl
  · exfalso
    have := is_lower_iff.mp hp
    omega
  · exfalso
    have := is_lower_iff.mp hp
    omega
  · exact absurd hp (by rw [hl]; decide)

theorem encrypt_fst_upper {p : Char} (hp : is_upper p = true) (sh1 sh2 : Int) :
    (encrypt_char_and_meta p sh1 sh2).1 =
      (if classify_plain p = "U1" then shift_char p (-(sh1 % 26))
       else shift_char p ((sh2 % 26 * (sh2 % 26)) % 26)) := by
  rcases classify_total p with ⟨hc, hr⟩ | ⟨hc, hr⟩ | ⟨hc, hr⟩ | ⟨hc, hr⟩ | ⟨hc, hl, hu⟩
  · exfalso
    have := is_upper_iff.mp hp
    omega
  · exfalso
    have := is_upper_iff.mp hp
    omega
  · rw [encrypt_eq_forward_by_meta, hc, if_pos rfl]
    rfl
  · rw [encrypt_eq_forward_by_meta, hc, if_neg (by decide)]
    rfl
  · exact absurd hp (by rw [hu]; decide)

theorem mem_bf_candidates_lower {c p : Char} (sh1 sh2 : Int) :
    p ∈ bf_candidates_lower c (sh1 % 26) (sh2 % 26) ↔
      is_lower p = true ∧ (encrypt_char_and_meta p sh1 sh2).1 = c := by
  rw [bf_candidates_lower, List.mem_filter]
  constructor
  · rintro ⟨hmem, hcond⟩
    have hp : is_lower p = true := is_lower_iff.mpr (mem_lower_alphabet.mp hmem)
    refine ⟨hp, ?_⟩
    rw [encrypt_fst_lower hp]
    exact of_decide_eq_true hcond
  · rintro ⟨hp, henc⟩
    refine ⟨mem_lower_alphabet.mpr (is_lower_iff.mp hp), decide_eq_true ?_⟩
    rw [← encrypt_fst_lower hp]
    exact henc

theorem mem_bf_candidates_upper {c p : Char} (sh1 sh2 : Int) :
    p ∈ bf_candidates_upper c (sh1 % 26) (sh2 % 26) ↔
      is_upper p = true ∧ (encrypt_char_and_meta p sh1 sh2).1 = c := by
  rw [bf_candidates_upper, List.mem_filter]
  constructor
  · rintro ⟨hmem, hcond⟩
    have hp : is_upper p = true := is_upper_iff.mpr (mem_upper_alphabet.mp hmem)
    refine ⟨hp, ?_⟩
    rw [encrypt_fst_upper hp]
    exact of_decide_eq_true hcond
  · rintro ⟨hp, henc⟩
    refine ⟨mem_upper_alphabet.mpr (is_upper_iff.mp hp), decide_eq_true ?_⟩
    rw [← encrypt_fst_upper hp]
    exact henc

theorem bf_cands_lower {c : Char} (hl : is_lower c = true) (s1 s2 : Int) :
    bf_cands s1 s2 c = bf_candidates_lower c s1 s2 := by
  rw [bf_cands, if_pos hl]

theorem bf_cands_upper {c : Char} (hu : is_upper c = true) (s1 s2 : Int) :
    bf_cands s1 s2 c = bf_candidates_upper c s1 s2 := by
  rw [bf_cands, if_neg (by rw [upper_not_lower hu]; decide), if_pos hu]

theorem bf_cands_other {c : Char} (hl : is_lower c = false) (hu : is_upper c = false)
    (s1 s2 : Int) : bf_cands s1 s2 c = [] := by
  rw [bf_cands, if_neg (by rw [hl]; decide), if_neg (by rw [hu]; decide)]

/-- `bf_cands` at reduced shifts is exactly the encoder preimage of the
cipher character inside the same-case alphabet. -/
theorem bf_cands_eq_filter (c : Char) (sh1 sh2 : Int)
    (h : is_lower c = true ∨ is_upper c = true) :
    bf_cands (sh1 % 26) (sh2 % 26) c =
      (if is_lower c then lower_alphabet else upper_alphabet).filter
        fun p => (encrypt_char_and_meta p sh1 sh2).1 = c := by
  by_cases hl : is_lower c = true
  · rw [bf_cands_lower hl, if_pos hl, bf_candidates_lower]
    refine List.filter_congr ?_
    intro p hp
    have hpl : is_lower p = true := is_lower_iff.mpr (mem_lower_alphabet.mp hp)
    rw [← encrypt_fst_lower hpl]
  · have hu : is_upper c = true := h.resolve_left hl
    rw [bf_cands_upper hu, if_neg hl, bf_candidates_upper]
    refine List.filter_congr ?_
    intro p hp
    have hpu : is_upper p = true := is_upper_iff.mpr (mem_upper_alphabet.mp hp)
    rw [← encrypt_fst_upper hpu]

/-- The branches of `bf_go` on a cons cell, rewritten through `bf_cands`. -/
theorem bf_go_cons (s1 s2 : Int) (i : Nat) (c : Char) (rest : List Char) :
    bf_go s1 s2 i (c :: rest) =
      if is_lower c = true ∨ is_upper c = true then
        (if (bf_cands s1 s2 c).length = 1 then
          ((bf_cands s1 s2 c).headD c :: (bf_go s1 s2 (i + 1) rest).1,
            (bf_go s1 s2 (i + 1) rest).2)
         else
          ((bf_cands s1 s2 c).headD c :: (bf_go s1 s2 (i + 1) rest).1,
            (i, c, bf_cands s1 s2 c) :: (bf_go s1 s2 (i + 1) rest).2))
      else (c :: (bf_go s1 s2 (i + 1) rest).1, (bf_go s1 s2 (i + 1) rest).2) := by
  by_cases hl : is_lower c = true
  · rw [bf_go, if_pos hl, if_pos (Or.inl hl), bf_cands_lower hl]
  · by_cases hu : is_upper c = true
    · rw [bf_go, if_neg hl, if_pos hu, if_pos (Or.inr hu), bf_cands_upper hu]
    · rw [bf_go, if_neg hl, if_neg hu,
        if_neg (by rintro (hx | hx) <;> [exact hl hx; exact hu hx])]

/-- The best-effort output of `bf_go` is the per-character head-or-identity
map over the cipher text, independent of the start index. -/
theorem bf_go_fst (s1 s2 : Int) (i : Nat) (l : List Char) :
    (bf_go s1 s2 i l).1 = l.map fun c => (bf_cands s1 s2 c).headD c := by
  induction l generalizing i with
  | nil => rfl
  | cons c rest ih =>
      rw [bf_go_cons, List.map_cons]
      by_cases hletter : is_lower c = true ∨ is_upper c = true
      · rw [if_pos hletter]
        by_cases h1 : (bf_cands s1 s2 c).length = 1
        · rw [if_pos h1, ih]
        · rw [if_neg h1, ih]
      · rw [if_neg hletter]
        have hl : is_lower c = false := Bool.eq_false_iff.mpr fun hx => hletter (Or.inl hx)
        have hu : is_upper c = false := Bool.eq_false_iff.mpr fun hx => hletter (Or.inr hx)
        rw [bf_cands_other hl hu, ih]
        rfl

/-- Every ambiguity record produced from start index `i` has position at
least `i`. -/
theorem bf_go_pos_ge (s1 s2 : Int) (i : Nat) (l : List Char) :
    ∀ r ∈ (bf_go s1 s2 i l).2, i ≤ r.1 := by
  induction l generalizing i with
  | nil => intro r hr; simp [bf_go] at hr
  | cons c rest ih =>
      intro r hr
      rw [bf_go_cons] at hr
      by_cases hletter : is_lower c = true ∨ is_upper c = true
      · rw [if_pos hletter] at hr
        by_cases h1 : (bf_cands s1 s2 c).length = 1
        · rw [if_pos h1] at hr
          exact le_trans (Nat.le_succ i) (ih (i + 1) r hr)
        · rw [if_neg h1] at hr
          rcases List.mem_cons.mp hr with rfl | hr
          · exact le_refl i
          · exact le_trans (Nat.le_succ i) (ih (i + 1) r hr)
      · rw [if_neg hletter] at hr
        exact le_trans (Nat.le_succ i) (ih (i + 1) r hr)

/-- Every ambiguity record is located at a letter position of the cipher
text, carries that cipher character and its candidate list, and only exists
because the candidate count differs from one. -/
theorem bf_go_rec_shape (s1 s2 : Int) (i : Nat) (l : List Char) :
    ∀ r ∈ (bf_go s1 s2 i l).2,
      ∃ k, k < l.length ∧ r.1 = i + k ∧ l[k]? = some r.2.1 ∧
        r.2.2 = bf_cands s1 s2 r.2.1 ∧
        (is_lower r.2.1 = true ∨ is_upper r.2.1 = true) ∧ r.2.2.length ≠ 1 := by
  induction l generalizing i with
  | nil => intro r hr; simp [bf_go] at hr
  | cons c rest ih =>
      intro r hr
      rw [bf_go_cons] at hr
      by_cases hletter : is_lower c = true ∨ is_upper c = true
      · rw [if_pos hletter] at hr
        by_cases h1 : (bf_cands s1 s2 c).length = 1
        · rw [if_pos h1] at hr
          obtain ⟨k, hk, e1, e2, e3, e4, e5⟩ := ih (i + 1) r hr
          exact ⟨k + 1, by simpa using hk, by omega, by simpa using e2, e3, e4, e5⟩
        · rw [if_neg h1] at hr
          rcases List.mem_cons.mp hr with rfl | hr
          · exact ⟨0, by simp, by simp, by simp, rfl, hletter, h1⟩
          · obtain ⟨k, hk, e1, e2, e3, e4, e5⟩ := ih (i + 1) r hr
            exact ⟨k + 1, by simpa using hk, by omega, by simpa using e2, e3, e4, e5⟩
      · rw [if_neg hletter] at hr
        obtain ⟨k, hk, e1, e2, e3, e4, e5⟩ := ih (i + 1) r hr
        exact ⟨k + 1, by simpa using hk, by omega, by simpa using e2, e3, e4, e5⟩

/-- A position is ambiguous exactly when its cipher character is a letter
whose candidate count differs from one. -/
theorem bf_go_pos_iff (s1 s2 : Int) (l : List Char) (i0 k : Nat) (c : Char)
    (hc : l[k]? = some c) :
    ((i0 + k) ∈ (bf_go s1 s2 i0 l).2.map fun r => r.1) ↔
      ((is_lower c = true ∨ is_upper c = true) ∧ (bf_cands s1 s2 c).length ≠ 1) := by
  induction l generalizing i0 k with
  | nil => simp at hc
  | cons d rest ih =>
      rw [bf_go_cons]
      by_cases hletter : is_lower d = true ∨ is_upper d = true
      · rw [if_pos hletter]
        by_cases h1 : (bf_cands s1 s2 d).length = 1
        · rw [if_pos h1]
          cases k with
          | zero =>
              have hdc : d = c := by simpa using hc
              subst hdc
              refine iff_of_false ?_ (fun hx => hx.2 h1)
              intro hmem
              rw [List.mem_map] at hmem
              obtain ⟨r, hr, hr1⟩ := hmem
              have := bf_go_pos_ge s1 s2 (i0 + 1) rest r hr
              omega
          | succ j =>
              have hc' : rest[j]? = some c := by simpa using hc
              have hidx : i0 + (j + 1) = (i0 + 1) + j := by omega
              rw [hidx]
              exact ih (i0 + 1) j hc'
        · rw [if_neg h1]
          cases k with
          | zero =>
              have hdc : d = c := by simpa using hc
              subst hdc
              refine iff_of_true ?_ ⟨hletter, h1⟩
              rw [List.map_cons]
              exact List.mem_cons_self _ _
          | succ j =>
              have hc' : rest[j]? = some c := by simpa using hc
              have hidx : i0 + (j + 1) = (i0 + 1) + j := by omega
              rw [List.map_cons, List.mem_cons]
              constructor
              · rintro (he | hmem)
                · omega
                · rw [hidx] at hmem
                  exact (ih (i0 + 1) j hc').mp hmem
              · intro hx
                right
                rw [hidx]
                exact (ih (i0 + 1) j hc').mpr hx
      · rw [if_neg hletter]
        cases k with
        | zero =>
            have hdc : d = c := by simpa using hc
            subst hdc
            refine iff_of_false ?_ (fun hx => hletter hx.1)
            intro hmem
            rw [List.mem_map] at hmem
            obtain ⟨r, hr, hr1⟩ := hmem
            have := bf_go_pos_ge s1 s2 (i0 + 1) rest r hr
            omega
        | succ j =>
            have hc' : rest[j]? = some c := by simpa using hc
            have hidx : i0 + (j + 1) = (i0 + 1) + j := by omega
            rw [hidx]
            exact ih (i0 + 1) j hc'

/-- The full record `(position, cipher char, candidates)` is in the
ambiguity list exactly when the character is a letter with candidate count
different from one. -/
theorem bf_go_record_iff (s1 s2 : Int) (l : List Char) (i0 k : Nat) (c : Char)
    (hc : l[k]? = some c) :
    ((i0 + k, c, bf_cands s1 s2 c) ∈ (bf_go s1 s2 i0 l).2) ↔
      ((is_lower c = true ∨ is_upper c = true) ∧ (bf_cands s1 s2 c).length ≠ 1) := by
  induction l generalizing i0 k with
  | nil => simp at hc
  | cons d rest ih =>
      rw [bf_go_cons]
      by_cases hletter : is_lower d = true ∨ is_upper d = true
      · rw [if_pos hletter]
        by_cases h1 : (bf_cands s1 s2 d).length = 1
        · rw [if_pos h1]
          cases k with
          | zero =>
              have hdc : d = c := by simpa using hc
              subst hdc
              refine iff_of_false ?_ (fun hx => hx.2 h1)
              intro hmem
              have := bf_go_pos_ge s1 s2 (i0 + 1) rest _ hmem
              simp at this
          | succ j =>
              have hc' : rest[j]? = some c := by simpa using hc
              have hidx : i0 + (j + 1) = (i0 + 1) + j := by omega
              rw [hidx]
              exact ih (i0 + 1) j hc'
        · rw [if_neg h1]
          cases k with
          | zero =>
              have hdc : d = c := by simpa using hc
              subst hdc
              refine iff_of_true ?_ ⟨hletter, h1⟩
              exact List.mem_cons_self _ _
          | succ j =>
              have hc' : rest[j]? = some c := by simpa using hc
              have hidx : i0 + (j + 1) = (i0 + 1) + j := by omega
              rw [List.mem_cons]
              constructor
              · rintro (he | hmem)
                · exfalso
                  have := congrArg Prod.fst he
                  simp at this
                · rw [hidx] at hmem
                  exact (ih (i0 + 1) j hc').mp hmem
              · intro hx
                right
                rw [hidx]
                exact (ih (i0 + 1) j hc').mpr hx
      · rw [if_neg hletter]
        cases k with
        | zero =>
            have hdc : d = c := by simpa using hc
            subst hdc
            refine iff_of_false ?_ (fun hx => hletter hx.1)
            intro hmem
            have := bf_go_pos_ge s1 s2 (i0 + 1) rest _ hmem
            simp at this
        | succ j =>
            have hc' : rest[j]? = some c := by simpa using hc
            have hidx : i0 + (j + 1) = (i0 + 1) + j := by omega
            rw [hidx]
            exact ih (i0 + 1) j hc'

/-! ### Candidate counting -/

theorem lower_alphabet_split :
    lower_alphabet =
      (List.range' 97 13).map Char.ofNat ++ (List.range' 110 13).map Char.ofNat := by
  rw [lower_alphabet]
  have h : Char.toNat 'a' = 97 := rfl
  rw [h, ← List.map_append]
  congr 1

theorem upper_alphabet_split :
    upper_alphabet =
      (List.range' 65 13).map Char.ofNat ++ (List.range' 78 13).map Char.ofNat := by
  rw [upper_alphabet]
  have h : Char.toNat 'A' = 65 := rfl
  rw [h, ← List.map_append]
  congr 1

theorem mem_half_range {p : Char} {s n : Nat} (hb : s + n ≤ 55296)
    (h : p ∈ (List.range' s n).map Char.ofNat) : s ≤ p.toNat ∧ p.toNat < s + n := by
  rw [List.mem_map] at h
  obtain ⟨a, ha, rfl⟩ := h
  rw [List.mem_range'] at ha
  obtain ⟨i, hi, rfl⟩ := ha
  rw [toNat_ofNat_valid (by omega)]
  omega

theorem nodup_map_ofNat_range' {s n : Nat} (hb : s + n ≤ 55296) :
    ((List.range' s n).map Char.ofNat).Nodup :=
  (pairwise_lt_map_ofNat_range' hb).imp fun h => Char.ne_of_lt h

theorem bf_candidates_lower_counts (c : Char) (s1 s2 : Int) :
    (bf_candidates_lower c s1 s2).length ≤ 2 ∧
    ((bf_candidates_lower c s1 s2).filter fun p => classify_plain p = "L1").length ≤ 1 ∧
    ((bf_candidates_lower c s1 s2).filter fun p => classify_plain p = "L2").length ≤ 1 := by
  have hsplit : bf_candidates_lower c s1 s2 =
      ((List.range' 97 13).map Char.ofNat).filter (fun p =>
        (if classify_plain p = "L1" then shift_char p ((s1 * s2) % 26)
         else shift_char p (-((s1 + s2) % 26))) = c) ++
      ((List.range' 110 13).map Char.ofNat).filter (fun p =>
        (if classify_plain p = "L1" then shift_char p ((s1 * s2) % 26)
         else shift_char p (-((s1 + s2) % 26))) = c) := by
    rw [bf_candidates_lower, lower_alphabet_split, List.filter_append]
  have hA : (((List.range' 97 13).map Char.ofNat).filter (fun p =>
      (if classify_plain p = "L1" then shift_char p ((s1 * s2) % 26)
       else shift_char p (-((s1 + s2) % 26))) = c)).length ≤ 1 := by
    refine length_filter_fiber_le_one (nodup_map_ofNat_range' (by norm_num)) ?_
    intro x hx y hy hf
    have hx' := mem_half_range (by norm_num) hx
    have hy' := mem_half_range (by norm_num) hy
    have hcx : classify_plain x = "L1" := classify_of_L1 ⟨hx'.1, by omega⟩
    have hcy : classify_plain y = "L1" := classify_of_L1 ⟨hy'.1, by omega⟩
    rw [hcx, hcy] at hf
    simp only [if_pos] at hf
    exact shift_char_inj_lower (is_lower_iff.mpr (by omega)) (is_lower_iff.mpr (by omega)) hf
  have hB : (((List.range' 110 13).map Char.ofNat).filter (fun p =>
      (if classify_plain p = "L1" then shift_char p ((s1 * s2) % 26)
       else shift_char p (-((s1 + s2) % 26))) = c)).length ≤ 1 := by
    refine length_filter_fiber_le_one (nodup_map_ofNat_range' (by norm_num)) ?_
    intro x hx y hy hf
    have hx' := mem_half_range (by norm_num) hx
    have hy' := mem_half_range (by norm_num) hy
    have hcx : classify_plain x = "L2" := classify_of_L2 ⟨by omega, by omega⟩
    have hcy : classify_plain y = "L2" := classify_of_L2 ⟨by omega, by omega⟩
    rw [hcx, hcy] at hf
    simp only [if_neg (by decide : ¬(("L2" : String) = "L1"))] at hf
    exact shift_char_inj_lower (is_lower_iff.mpr (by omega)) (is_lower_iff.mpr (by omega)) hf
  have hAall : ∀ p ∈ ((List.range' 97 13).map Char.ofNat).filter (fun p =>
      (if classify_plain p = "L1" then shift_char p ((s1 * s2) % 26)
       else shift_char p (-((s1 + s2) % 26))) = c), classify_plain p = "L1" := by
    intro p hp
    have := mem_half_range (by norm_num) (List.mem_of_mem_filter hp)
    exact classify_of_L1 ⟨this.1, by omega⟩
  have hBall : ∀ p ∈ ((List.range' 110 13).map Char.ofNat).filter (fun p =>
      (if classify_plain p = "L1" then shift_char p ((s1 * s2) % 26)
       else shift_char p (-((s1 + s2) % 26))) = c), classify_plain p = "L2" := by
    intro p hp
    have := mem_half_range (by norm_num) (List.mem_of_mem_filter hp)
    exact classify_of_L2 ⟨by omega, by omega⟩
  refine ⟨?_, ?_, ?_⟩
  · rw [hsplit, List.length_append]
    omega
  · rw [hsplit, List.filter_append, List.length_append]
    have h1 : (((List.range' 97 13).map Char.ofNat).filter (fun p =>
        (if classify_plain p = "L1" then shift_char p ((s1 * s2) % 26)
         else shift_char p (-((s1 + s2) % 26))) = c)).filter
          (fun p => classify_plain p = "L1") =
        ((List.range' 97 13).map Char.ofNat).filter (fun p =>
        (if classify_plain p = "L1" then shift_char p ((s1 * s2) % 26)
         else shift_char p (-((s1 + s2) % 26))) = c) :=
      List.filter_eq_self.mpr fun p hp => decide_eq_true (hAall p hp)
    have h2 : (((List.range' 110 13).map Char.ofNat).filter (fun p =>
        (if classify_plain p = "L1" then shift_char p ((s1 * s2) % 26)
         else shift_char p (-((s1 + s2) % 26))) = c)).filter
          (fun p => classify_plain p = "L1") = [] :=
      List.filter_eq_nil_iff.mpr fun p hp => by
        simp only [decide_eq_true_eq]
        rw [hBall p hp]
        decide
    rw [h1, h2]
    simpa using hA
  · rw [hsplit, List.filter_append, List.length_append]
    have h1 : (((List.range' 97 13).map Char.ofNat).filter (fun p =>
        (if classify_plain p = "L1" then shift_char p ((s1 * s2) % 26)
         else shift_char p (-((s1 + s2) % 26))) = c)).filter
          (fun p => classify_plain p = "L2") = [] :=
      List.filter_eq_nil_iff.mpr fun p hp => by
        simp only [decide_eq_true_eq]
        rw [hAall p hp]
        decide
    have h2 : (((List.range' 110 13).map Char.ofNat).filter (fun p =>
        (if classify_plain p = "L1" then shift_char p ((s1 * s2) % 26)
         else shift_char p (-((s1 + s2) % 26))) = c)).filter
          (fun p => classify_plain p = "L2") =
        ((List.range' 110 13).map Char.ofNat).filter (fun p =>
        (if classify_plain p = "L1" then shift_char p ((s1 * s2) % 26)
         else shift_char p (-((s1 + s2) % 26))) = c) :=
      List.filter_eq_self.mpr fun p hp => decide_eq_true (hBall p hp)
    rw [h1, h2]
    simpa using hB

theorem bf_candidates_upper_counts (c : Char) (s1 s2 : Int) :
    (bf_candidates_upper c s1 s2).length ≤ 2 ∧
    ((bf_candidates_upper c s1 s2).filter fun p => classify_plain p = "U1").length ≤ 1 ∧
    ((bf_candidates_upper c s1 s2).filter fun p => classify_plain p = "U2").length ≤ 1 := by
  have hsplit : bf_candidates_upper c s1 s2 =
      ((List.range' 65 13).map Char.ofNat).filter (fun p =>
        (if classify_plain p = "U1" then shift_char p (-s1)
         else shift_char p ((s2 * s2) % 26)) = c) ++
      ((List.range' 78 13).map Char.ofNat).filter (fun p =>
        (if classify_plain p = "U1" then shift_char p (-s1)
         else shift_char p ((s2 * s2) % 26)) = c) := by
    rw [bf_candidates_upper, upper_alphabet_split, List.filter_append]
  have hA : (((List.range' 65 13).map Char.ofNat).filter (fun p =>
      (if classify_plain p = "U1" then shift_char p (-s1)
       else shift_char p ((s2 * s2) % 26)) = c)).length ≤ 1 := by
    refine length_filter_fiber_le_one (nodup_map_ofNat_range' (by norm_num)) ?_
    intro x hx y hy hf
    have hx' := mem_half_range (by norm_num) hx
    have hy' := mem_half_range (by norm_num) hy
    have hcx : classify_plain x = "U1" := classify_of_U1 ⟨hx'.1, by omega⟩
    have hcy : classify_plain y = "U1" := classify_of_U1 ⟨hy'.1, by omega⟩
    rw [hcx, hcy] at hf
    simp only [if_pos] at hf
    exact shift_char_inj_upper (is_upper_iff.mpr (by omega)) (is_upper_iff.mpr (by omega)) hf
  have hB : (((List.range' 78 13).map Char.ofNat).filter (fun p =>
      (if classify_plain p = "U1" then shift_char p (-s1)
       else shift_char p ((s2 * s2) % 26)) = c)).length ≤ 1 := by
    refine length_filter_fiber_le_one (nodup_map_ofNat_range' (by norm_num)) ?_
    intro x hx y hy hf
    have hx' := mem_half_range (by norm_num) hx
    have hy' := mem_half_range (by norm_num) hy
    have hcx : classify_plain x = "U2" := classify_of_U2 ⟨by omega, by omega⟩
    have hcy : classify_plain y = "U2" := classify_of_U2 ⟨by omega, by omega⟩
    rw [hcx, hcy] at hf
    simp only [if_neg (by decide : ¬(("U2" : String) = "U1"))] at hf
    exact shift_char_inj_upper (is_upper_iff.mpr (by omega)) (is_upper_iff.mpr (by omega)) hf
  have hAall : ∀ p ∈ ((List.range' 65 13).map Char.ofNat).filter (fun p =>
      (if classify_plain p = "U1" then shift_char p (-s1)
       else shift_char p ((s2 * s2) % 26)) = c), classify_plain p = "U1" := by
    intro p hp
    have := mem_half_range (by norm_num) (List.mem_of_mem_filter hp)
    exact classify_of_U1 ⟨this.1, by omega⟩
  have hBall : ∀ p ∈ ((List.range' 78 13).map Char.ofNat).filter (fun p =>
      (if classify_plain p = "U1" then shift_char p (-s1)
       else shift_char p ((s2 * s2) % 26)) = c), classify_plain p = "U2" := by
    intro p hp
    have := mem_half_range (by norm_num) (List.mem_of_mem_filter hp)
    exact classify_of_U2 ⟨by omega, by omega⟩
  refine ⟨?_, ?_, ?_⟩
  · rw [hsplit, List.length_append]
    omega
  · rw [hsplit, List.filter_append, List.length_append]
    have h1 : (((List.range' 65 13).map Char.ofNat).filter (fun p =>
        (if classify_plain p = "U1" then shift_char p (-s1)
         else shift_char p ((s2 * s2) % 26)) = c)).filter
          (fun p => classify_plain p = "U1") =
        ((List.range' 65 13).map Char.ofNat).filter (fun p =>
        (if classify_plain p = "U1" then shift_char p (-s1)
         else shift_char p ((s2 * s2) % 26)) = c) :=
      List.filter_eq_self.mpr fun p hp => decide_eq_true (hAall p hp)
    have h2 : (((List.range' 78 13).map Char.ofNat).filter (fun p =>
        (if classify_plain p = "U1" then shift_char p (-s1)
         else shift_char p ((s2 * s2) % 26)) = c)).filter
          (fun p => classify_plain p = "U1") = [] :=
      List.filter_eq_nil_iff.mpr fun p hp => by
        simp only [decide_eq_true_eq]
        rw [hBall p hp]
        decide
    rw [h1, h2]
    simpa using hA
  · rw [hsplit, List.filter_append, List.length_append]
    have h1 : (((List.range' 65 13).map Char.ofNat).filter (fun p =>
        (if classify_plain p = "U1" then shift_char p (-s1)
         else shift_char p ((s2 * s2) % 26)) = c)).filter
          (fun p => classify_plain p = "U2") = [] :=
      List.filter_eq_nil_iff.mpr fun p hp => by
        simp only [decide_eq_true_eq]
        rw [hAall p hp]
        decide
    have h2 : (((List.range' 78 13).map Char.ofNat).filter (fun p =>
        (if classify_plain p = "U1" then shift_char p (-s1)
         else shift_char p ((s2 * s2) % 26)) = c)).filter
          (fun p => classify_plain p = "U2") =
        ((List.range' 78 13).map Char.ofNat).filter (fun p =>
        (if classify_plain p = "U1" then shift_char p (-s1)
         else shift_char p ((s2 * s2) % 26)) = c) :=
      List.filter_eq_self.mpr fun p hp => decide_eq_true (hBall p hp)
    rw [h1, h2]
    simpa using hB

theorem bf_cands_le_two (s1 s2 : Int) (c : Char) : (bf_cands s1 s2 c).length ≤ 2 := by
  by_cases hl : is_lower c = true
  · rw [bf_cands_lower hl]
    exact (bf_candidates_lower_counts c s1 s2).1
  · by_cases hu : is_upper c = true
    · rw [bf_cands_upper hu]
      exact (bf_candidates_upper_counts c s1 s2).1
    · rw [bf_cands_other (Bool.eq_false_iff.mpr hl) (Bool.eq_false_iff.mpr hu)]
      simp

theorem bf_cands_pairwise (s1 s2 : Int) (c : Char) :
    List.Pairwise (· < ·) (bf_cands s1 s2 c) := by
  by_cases hl : is_lower c = true
  · rw [bf_cands_lower hl, bf_candidates_lower]
    exact pairwise_lt_lower_alphabet.filter _
  · by_cases hu : is_upper c = true
    · rw [bf_cands_upper hu, bf_candidates_upper]
      exact pairwise_lt_upper_alphabet.filter _
    · rw [bf_cands_other (Bool.eq_false_iff.mpr hl) (Bool.eq_false_iff.mpr hu)]
      exact List.Pairwise.nil

theorem headD_of_mem_len_one {l : List Char} {x d : Char} (h1 : l.length = 1)
    (hm : x ∈ l) : l.headD d = x := by
  obtain ⟨a, rfl⟩ := List.length_eq_one.mp h1
  obtain rfl : x = a := List.mem_singleton.mp hm
  rfl

/-- At an unambiguous position the brute-force per-character output is the
original plaintext character. -/
theorem bf_char_correct (t e : Char) (sh1 sh2 : Int)
    (he : (encrypt_char_and_meta t sh1 sh2).1 = e)
    (hflag : ¬((is_lower e = true ∨ is_upper e = true) ∧
      (bf_cands (sh1 % 26) (sh2 % 26) e).length ≠ 1)) :
    (bf_cands (sh1 % 26) (sh2 % 26) e).headD e = t := by
  by_cases hl : is_lower t = true
  · have hel : is_lower e = true := by
      rw [← he, is_lower_encrypt]
      exact hl
    have hlen : (bf_cands (sh1 % 26) (sh2 % 26) e).length = 1 := by
      by_contra hne
      exact hflag ⟨Or.inl hel, hne⟩
    have hmem : t ∈ bf_cands (sh1 % 26) (sh2 % 26) e := by
      rw [bf_cands_lower hel]
      exact (mem_bf_candidates_lower sh1 sh2).mpr ⟨hl, he⟩
    exact headD_of_mem_len_one hlen hmem
  · by_cases hu : is_upper t = true
    · have heu : is_upper e = true := by
        rw [← he, is_upper_encrypt]
        exact hu
      have hlen : (bf_cands (sh1 % 26) (sh2 % 26) e).length = 1 := by
        by_contra hne
        exact hflag ⟨Or.inr heu, hne⟩
      have hmem : t ∈ bf_cands (sh1 % 26) (sh2 % 26) e := by
        rw [bf_cands_upper heu]
        exact (mem_bf_candidates_upper sh1 sh2).mpr ⟨hu, he⟩
      exact headD_of_mem_len_one hlen hmem
    · have hlf : is_lower t = false := Bool.eq_false_iff.mpr hl
      have huf : is_upper t = false := Bool.eq_false_iff.mpr hu
      have hO : classify_plain t = "O" := classify_of_O hlf huf
      have het : e = t := by
        rw [← he, encrypt_eq_forward_by_meta, hO]
        rfl
      subst het
      rw [bf_cands_other hlf huf]
      rfl

/-! ### Claim theorems -/

theorem decrypt_encrypt (T : List Char) (shift1 shift2 : Int) :
    decrypt_with_meta (encrypt_file T shift1 shift2).1 (encrypt_file T shift1 shift2).2
      shift1 shift2 = T := by
  induction T with
  | nil => rfl
  | cons c rest ih =>
      have hc := inverse_encrypt_char c shift1 shift2
      simp only [encrypt_file, decrypt_with_meta, List.map_cons, List.zip_cons_cons] at ih ⊢
      rw [hc, ih]

/-- C1: encoding any text with `encrypt_file` and then applying
`inverse_by_meta` to each cipher character with its recorded metadata tag
(the metadata branch of `decrypt_file`, `decrypt_with_meta`) reconstructs
the source text exactly, for every pair of signed integer shifts; the
degenerate pair `shift1 = 0, shift2 = 0` is the instance at `0 0`. -/
theorem metadata_roundtrip (T : List Char) (shift1 shift2 : Int) :
    decrypt_with_meta (encrypt_file T shift1 shift2).1 (encrypt_file T shift1 shift2).2
      shift1 shift2 = T :=
  decrypt_encrypt T shift1 shift2

/-- C2: for every class `K` among L1, L2, U1, U2, every letter `c` of `K`'s
alphabet, and both shifts in `[0, 26)`, the forward rule for `K` followed by
the inverse rule for `K` returns `c`, and so does the inverse followed by
the forward rule; the forward rule for `K` is exactly what
`encrypt_char_and_meta` computes on `c`. -/
theorem forward_inverse_identity (K : String) (c : Char) (s1 s2 : Int)
    (hK : K = "L1" ∨ K = "L2" ∨ K = "U1" ∨ K = "U2")
    (hc : classify_plain c = K)
    (h1 : 0 ≤ s1 ∧ s1 < 26) (h2 : 0 ≤ s2 ∧ s2 < 26) :
    inverse_by_meta (forward_by_meta c K s1 s2) K s1 s2 = c ∧
    forward_by_meta (inverse_by_meta c K s1 s2) K s1 s2 = c ∧
    (encrypt_char_and_meta c s1 s2).1 = forward_by_meta c K s1 s2 := by
  have henc : (encrypt_char_and_meta c s1 s2).1 = forward_by_meta c K s1 s2 := by
    rw [encrypt_eq_forward_by_meta, hc]
  rcases hK with h | h | h | h <;> subst h
  · have hlow : is_lower c = true := is_lower_iff.mpr (by have := classify_eq_L1.mp hc; omega)
    refine ⟨?_, ?_, henc⟩
    · rw [forward_meta_L1, inverse_meta_L1]
      exact shift_shift_cancel_lower hlow (by omega)
    · rw [inverse_meta_L1, forward_meta_L1]
      exact shift_shift_cancel_lower hlow (by omega)
  · have hlow : is_lower c = true := is_lower_iff.mpr (by have := classify_eq_L2.mp hc; omega)
    refine ⟨?_, ?_, henc⟩
    · rw [forward_meta_L2, inverse_meta_L2]
      exact shift_shift_cancel_lower hlow (by omega)
    · rw [inverse_meta_L2, forward_meta_L2]
      exact shift_shift_cancel_lower hlow (by omega)
  · have hupp : is_upper c = true := is_upper_iff.mpr (by have := classify_eq_U1.mp hc; omega)
    refine ⟨?_, ?_, henc⟩
    · rw [forward_meta_U1, inverse_meta_U1]
      exact shift_shift_cancel_upper hupp (by omega)
    · rw [inverse_meta_U1, forward_meta_U1]
      exact shift_shift_cancel_upper hupp (by omega)
  · have hupp : is_upper c = true := is_upper_iff.mpr (by have := classify_eq_U2.mp hc; omega)
    refine ⟨?_, ?_, henc⟩
    · rw [forward_meta_U2, inverse_meta_U2]
      exact shift_shift_cancel_upper hupp (by omega)
    · rw [inverse_meta_U2, forward_meta_U2]
      exact shift_shift_cancel_upper hupp (by omega)

/-- Witness for C2 at `K = "L1"`, `c = 'c'`, `s1 = 3`, `s2 = 5`. -/
theorem forward_inverse_identity_witness :
    classify_plain 'c' = "L1" ∧
    (inverse_by_meta (forward_by_meta 'c' "L1" 3 5) "L1" 3 5 = 'c' ∧
     forward_by_meta (inverse_by_meta 'c' "L1" 3 5) "L1" 3 5 = 'c' ∧
     (encrypt_char_and_meta 'c' 3 5).1 = forward_by_meta 'c' "L1" 3 5) :=
  ⟨by decide,
   forward_inverse_identity "L1" 'c' 3 5 (Or.inl rfl) (by decide) (by decide) (by decide)⟩

/-- C6: for every pair of signed shifts, including negative values, the
reduced shifts `shift1 % 26` and `shift2 % 26` used by the shift rules lie
in `[0, 26)` (mathematical modulo, never negative), and shifting preserves
the case alphabet exactly: `shift_char` and the cipher character produced by
`encrypt_char_and_meta` are lowercase, respectively uppercase, precisely
when the input character is. -/
theorem shift_reduction (shift1 shift2 k : Int) (c : Char) :
    (0 ≤ shift1 % 26 ∧ shift1 % 26 < 26) ∧ (0 ≤ shift2 % 26 ∧ shift2 % 26 < 26) ∧
    is_lower (shift_char c k) = is_lower c ∧ is_upper (shift_char c k) = is_upper c ∧
    is_lower ((encrypt_char_and_meta c shift1 shift2).1) = is_lower c ∧
    is_upper ((encrypt_char_and_meta c shift1 shift2).1) = is_upper c :=
  ⟨⟨Int.emod_nonneg _ (by norm_num), Int.emod_lt_of_pos _ (by norm_num)⟩,
   ⟨Int.emod_nonneg _ (by norm_num), Int.emod_lt_of_pos _ (by norm_num)⟩,
   is_lower_shift_eq c k, is_upper_shift_eq c k,
   is_lower_encrypt c shift1 shift2, is_upper_encrypt c shift1 shift2⟩

/-- C7: the encoder produces a cipher text of the same length as the source
and a metadata sequence of the same length, whose tag at each position is
the class of the source character at that position. -/
theorem encoder_lengths (T : List Char) (sh1 sh2 : Int) :
    (encrypt_file T sh1 sh2).1.length = T.length ∧
    (encrypt_file T sh1 sh2).2.length = T.length ∧
    (encrypt_file T sh1 sh2).2 = T.map classify_plain ∧
    ∀ i : Nat, (encrypt_file T sh1 sh2).2[i]? = (T[i]?).map classify_plain := by
  have hmap : (encrypt_file T sh1 sh2).2 = T.map classify_plain := by
    simp only [encrypt_file, encrypt_snd]
  refine ⟨by simp [encrypt_file], by simp [encrypt_file], hmap, ?_⟩
  intro i
  rw [hmap, List.getElem?_map]

/-- C8: a character outside both `a`–`z` and `A`–`Z` is classified `"O"`,
is unchanged by `shift_char` under any shift, is left unchanged by the
encoder with metadata tag `"O"`, and is unchanged by the inverse transform
for tag `"O"`, for every shift pair. -/
theorem other_unchanged (c : Char) (sh1 sh2 k : Int)
    (hl : is_lower c = false) (hu : is_upper c = false) :
    classify_plain c = "O" ∧ shift_char c k = c ∧
    encrypt_char_and_meta c sh1 sh2 = (c, "O") ∧ inverse_by_meta c "O" sh1 sh2 = c := by
  have hO := classify_of_O hl hu
  refine ⟨hO, shift_char_other hl hu k, ?_, inverse_meta_O c sh1 sh2⟩
  rw [encrypt_eq_forward_by_meta, hO]
  rfl

/-- Witness for C8 at `c = '!'` (punctuation), shifts `3, 5`, `k = -7`. -/
theorem other_unchanged_witness :
    is_lower '!' = false ∧ is_upper '!' = false ∧
    (classify_plain '!' = "O" ∧ shift_char '!' (-7) = '!' ∧
     encrypt_char_and_meta '!' 3 5 = ('!', "O") ∧ inverse_by_meta '!' "O" 3 5 = '!') :=
  ⟨by decide, by decide, other_unchanged '!' 3 5 (-7) (by decide) (by decide)⟩

/-- C3: encode a text, then brute-force decrypt the cipher text; at every
position that is not in the ambiguity list, the brute-force output agrees
with the source text — and hence with the metadata-guided output, which
reconstructs the source everywhere. -/
theorem ambiguity_soundness (T : List Char) (sh1 sh2 : Int) (i : Nat)
    (hna : i ∉ ((brute_force_decrypt (encrypt_file T sh1 sh2).1 sh1 sh2).2.map
      fun r => r.1)) :
    (brute_force_decrypt (encrypt_file T sh1 sh2).1 sh1 sh2).1[i]? = T[i]? ∧
    (decrypt_with_meta (encrypt_file T sh1 sh2).1 (encrypt_file T sh1 sh2).2
      sh1 sh2)[i]? = T[i]? := by
  refine ⟨?_, by rw [decrypt_encrypt]⟩
  rw [brute_force_decrypt, bf_go_fst]
  by_cases hi : i < T.length
  · have ht : T[i]? = some (T.get ⟨i, hi⟩) := by
      rw [List.getElem?_eq_getElem hi]
      rfl
    have hcip : (encrypt_file T sh1 sh2).1[i]? =
        some ((encrypt_char_and_meta (T.get ⟨i, hi⟩) sh1 sh2).1) := by
      rw [encrypt_file]
      rw [List.getElem?_map, ht]
      rfl
    have hpos := bf_go_pos_iff (sh1 % 26) (sh2 % 26) (encrypt_file T sh1 sh2).1 0 i
      ((encrypt_char_and_meta (T.get ⟨i, hi⟩) sh1 sh2).1) hcip
    rw [Nat.zero_add] at hpos
    rw [brute_force_decrypt] at hna
    have hflag := fun hf => hna (hpos.mpr hf)
    rw [ht, List.getElem?_map, hcip]
    simp only [Option.map_some']
    exact congrArg some (bf_char_correct _ _ sh1 sh2 rfl hflag)
  · have hlen : T.length ≤ i := Nat.le_of_not_lt hi
    rw [List.getElem?_eq_none hlen, List.getElem?_eq_none ?hb]
    case hb =>
      simp [encrypt_file, hlen]

/-- Witness for C3 at `T = "Hi!"`, shifts `1, 0`, position `0`. -/
theorem ambiguity_soundness_witness :
    (0 ∉ ((brute_force_decrypt (encrypt_file ('H' :: 'i' :: '!' :: []) 1 0).1 1 0).2.map
      fun r => r.1)) ∧
    ((brute_force_decrypt (encrypt_file ('H' :: 'i' :: '!' :: []) 1 0).1 1 0).1[(0 : Nat)]? =
      ('H' :: 'i' :: '!' :: [])[(0 : Nat)]? ∧
     (decrypt_with_meta (encrypt_file ('H' :: 'i' :: '!' :: []) 1 0).1
       (encrypt_file ('H' :: 'i' :: '!' :: []) 1 0).2 1 0)[(0 : Nat)]? =
      ('H' :: 'i' :: '!' :: [])[(0 : Nat)]?) :=
  ⟨by decide, ambiguity_soundness ('H' :: 'i' :: '!' :: []) 1 0 0 (by decide)⟩

/-- C4: at a letter position of the cipher text, the candidate list is the
encoder preimage of the cipher character inside the same-case alphabet,
listed in ascending order; the brute-force output there is its first
element (or the cipher character itself when it is empty); the position
carries an ambiguity record — namely `(i, cipher char, candidates)` —
exactly when the candidate count differs from one. -/
theorem bf_decision_policy (enc : List Char) (sh1 sh2 : Int) (i : Nat) (c : Char)
    (hc : enc[i]? = some c) (hletter : is_lower c = true ∨ is_upper c = true) :
    bf_cands (sh1 % 26) (sh2 % 26) c =
      (if is_lower c then lower_alphabet else upper_alphabet).filter
        (fun p => (encrypt_char_and_meta p sh1 sh2).1 = c) ∧
    List.Pairwise (· < ·) (bf_cands (sh1 % 26) (sh2 % 26) c) ∧
    (brute_force_decrypt enc sh1 sh2).1[i]? =
      some ((bf_cands (sh1 % 26) (sh2 % 26) c).headD c) ∧
    ((i ∈ (brute_force_decrypt enc sh1 sh2).2.map fun r => r.1) ↔
      (bf_cands (sh1 % 26) (sh2 % 26) c).length ≠ 1) ∧
    (((i, c, bf_cands (sh1 % 26) (sh2 % 26) c) ∈ (brute_force_decrypt enc sh1 sh2).2) ↔
      (bf_cands (sh1 % 26) (sh2 % 26) c).length ≠ 1) := by
  refine ⟨bf_cands_eq_filter c sh1 sh2 hletter, bf_cands_pairwise _ _ c, ?_, ?_, ?_⟩
  · rw [brute_force_decrypt, bf_go_fst, List.getElem?_map, hc]
    rfl
  · have hpos := bf_go_pos_iff (sh1 % 26) (sh2 % 26) enc 0 i c hc
    rw [Nat.zero_add] at hpos
    rw [brute_force_decrypt]
    exact hpos.trans ⟨fun h => h.2, fun h => ⟨hletter, h⟩⟩
  · have hrec := bf_go_record_iff (sh1 % 26) (sh2 % 26) enc 0 i c hc
    rw [Nat.zero_add] at hrec
    rw [brute_force_decrypt]
    exact hrec.trans ⟨fun h => h.2, fun h => ⟨hletter, h⟩⟩

/-- Witness for C4 at `enc = "m"`, shifts `1, 0`, position `0`: the two
candidates are `m` (class L1, shift 0) and `n` (class L2, shift −1). -/
theorem bf_decision_policy_witness :
    (('m' :: [])[(0 : Nat)]? = some 'm') ∧
    (is_lower 'm' = true ∨ is_upper 'm' = true) ∧
    (bf_cands (1 % 26) (0 % 26) 'm' =
      (if is_lower 'm' then lower_alphabet else upper_alphabet).filter
        (fun p => (encrypt_char_and_meta p 1 0).1 = 'm') ∧
     List.Pairwise (· < ·) (bf_cands (1 % 26) (0 % 26) 'm') ∧
     (brute_force_decrypt ('m' :: []) 1 0).1[(0 : Nat)]? =
       some ((bf_cands (1 % 26) (0 % 26) 'm').headD 'm') ∧
     ((0 ∈ (brute_force_decrypt ('m' :: []) 1 0).2.map fun r => r.1) ↔
       (bf_cands (1 % 26) (0 % 26) 'm').length ≠ 1) ∧
     (((0, 'm', bf_cands (1 % 26) (0 % 26) 'm') ∈ (brute_force_decrypt ('m' :: []) 1 0).2) ↔
       (bf_cands (1 % 26) (0 % 26) 'm').length ≠ 1)) :=
  ⟨by decide, by decide, bf_decision_policy ('m' :: []) 1 0 0 'm' (by decide) (by decide)⟩

/-- C5: every ambiguity record either has an empty candidate list (its
cipher character is reachable from no letter of its case — the irrecoverable
case, where the output keeps the cipher character since `headD` of the empty
list is its default) or records a true tie of at least two candidates; the
two kinds are told apart by the record's candidate list, which is exactly
the encoder preimage of the cipher character in its case alphabet. -/
theorem zero_candidate_records (enc : List Char) (sh1 sh2 : Int)
    (r : Nat × Char × List Char) (hr : r ∈ (brute_force_decrypt enc sh1 sh2).2) :
    (r.2.2 = [] ∨ 2 ≤ r.2.2.length) ∧
    r.2.2 = (if is_lower r.2.1 then lower_alphabet else upper_alphabet).filter
      (fun p => (encrypt_char_and_meta p sh1 sh2).1 = r.2.1) ∧
    (brute_force_decrypt enc sh1 sh2).1[r.1]? = some (r.2.2.headD r.2.1) := by
  rw [brute_force_decrypt] at hr
  obtain ⟨k, hk, e1, e2, e3, e4, e5⟩ := bf_go_rec_shape (sh1 % 26) (sh2 % 26) 0 enc r hr
  rw [Nat.zero_add] at e1
  refine ⟨?_, ?_, ?_⟩
  · have hle : r.2.2.length ≤ 2 := by
      rw [e3]
      exact bf_cands_le_two _ _ _
    rcases Nat.lt_or_ge r.2.2.length 1 with h | h
    · exact Or.inl (List.length_eq_zero.mp (by omega))
    · exact Or.inr (by omega)
  · rw [e3]
    exact bf_cands_eq_filter r.2.1 sh1 sh2 e4
  · rw [brute_force_decrypt, bf_go_fst, e1, List.getElem?_map, e2]
    simp only [Option.map_some']
    rw [e3]

/-- Witness for C5 at `enc = "z"`, shifts `1, 0`: `z` is reachable from no
lowercase letter (a–m shift by 0, n–z shift by −1), so the record at
position 0 is `(0, 'z', [])`. -/
theorem zero_candidate_records_witness :
    ((0, 'z', ([] : List Char)) ∈ (brute_force_decrypt ('z' :: []) 1 0).2) ∧
    ((([] : List Char) = [] ∨ 2 ≤ ([] : List Char).length) ∧
     ([] : List Char) = (if is_lower 'z' then lower_alphabet else upper_alphabet).filter
       (fun p => (encrypt_char_and_meta p 1 0).1 = 'z') ∧
     (brute_force_decrypt ('z' :: []) 1 0).1[(0 : Nat)]? =
       some (([] : List Char).headD 'z')) :=
  ⟨by decide, zero_candidate_records ('z' :: []) 1 0 (0, 'z', []) (by decide)⟩

/-- C9: the verifier answers Match (`true`) exactly when the two texts are
equal; on `"abc"` versus `"abc"` it answers Match, on `"abc"` versus
`"abd"` it answers Mismatch, and the first differing position is 2, where
`'c'` faces `'d'`. -/
theorem verifier_scenario :
    (∀ a b : List Char, verify_files a b = true ↔ a = b) ∧
    verify_files ('a' :: 'b' :: 'c' :: []) ('a' :: 'b' :: 'c' :: []) = true ∧
    verify_files ('a' :: 'b' :: 'c' :: []) ('a' :: 'b' :: 'd' :: []) = false ∧
    first_diff ('a' :: 'b' :: 'c' :: []) ('a' :: 'b' :: 'd' :: []) = some (2, 'c', 'd') := by
  refine ⟨?_, by decide, by decide, by decide⟩
  intro a b
  rw [verify_files]
  exact beq_iff_eq

/-- C10: for a letter cipher character the candidate list holds at most two
letters — at most one of first-half class and at most one of second-half
class — in strictly ascending order, and consequently every ambiguity
record's candidate list has length 0 or 2. -/
theorem candidate_count_bounds (c : Char) (sh1 sh2 : Int) (enc : List Char)
    (h : is_lower c = true ∨ is_upper c = true) :
    (bf_cands (sh1 % 26) (sh2 % 26) c).length ≤ 2 ∧
    ((bf_cands (sh1 % 26) (sh2 % 26) c).filter fun p =>
      classify_plain p = "L1" ∨ classify_plain p = "U1").length ≤ 1 ∧
    ((bf_cands (sh1 % 26) (sh2 % 26) c).filter fun p =>
      classify_plain p = "L2" ∨ classify_plain p = "U2").length ≤ 1 ∧
    List.Pairwise (· < ·) (bf_cands (sh1 % 26) (sh2 % 26) c) ∧
    ((brute_force_decrypt enc sh1 sh2).2.all fun r =>
      decide (r.2.2.length = 0 ∨ r.2.2.length = 2)) = true := by
  have hall : ((brute_force_decrypt enc sh1 sh2).2.all fun r =>
      decide (r.2.2.length = 0 ∨ r.2.2.length = 2)) = true := by
    rw [List.all_eq_true]
    intro r hr
    rw [brute_force_decrypt] at hr
    obtain ⟨k, hk, e1, e2, e3, e4, e5⟩ := bf_go_rec_shape (sh1 % 26) (sh2 % 26) 0 enc r hr
    have hle : r.2.2.length ≤ 2 := by
      rw [e3]
      exact bf_cands_le_two _ _ _
    exact decide_eq_true (by omega)
  refine ⟨bf_cands_le_two _ _ c, ?_, ?_, bf_cands_pairwise _ _ c, hall⟩
  · by_cases hl : is_lower c = true
    · rw [bf_cands_lower hl]
      have hcongr : (bf_candidates_lower c (sh1 % 26) (sh2 % 26)).filter
          (fun p => classify_plain p = "L1" ∨ classify_plain p = "U1") =
          (bf_candidates_lower c (sh1 % 26) (sh2 % 26)).filter
          (fun p => classify_plain p = "L1") := by
        refine List.filter_congr ?_
        intro p hp
        have hpl : is_lower p = true :=
          is_lower_iff.mpr (mem_lower_alphabet.mp (List.mem_of_mem_filter hp))
        have hnu : ¬(classify_plain p = "U1") := by
          intro hq
          have := classify_eq_U1.mp hq
          have := is_lower_iff.mp hpl
          omega
        exact decide_eq_decide.mpr (or_iff_left hnu)
      rw [hcongr]
      exact (bf_candidates_lower_counts c (sh1 % 26) (sh2 % 26)).2.1
    · have hu : is_upper c = true := h.resolve_left hl
      rw [bf_cands_upper hu]
      have hcongr : (bf_candidates_upper c (sh1 % 26) (sh2 % 26)).filter
          (fun p => classify_plain p = "L1" ∨ classify_plain p = "U1") =
          (bf_candidates_upper c (sh1 % 26) (sh2 % 26)).filter
          (fun p => classify_plain p = "U1") := by
        refine List.filter_congr ?_
        intro p hp
        have hpu : is_upper p = true :=
          is_upper_iff.mpr (mem_upper_alphabet.mp (List.mem_of_mem_filter hp))
        have hnl : ¬(classify_plain p = "L1") := by
          intro hq
          have := classify_eq_L1.mp hq
          have := is_upper_iff.mp hpu
          omega
        exact decide_eq_decide.mpr (or_iff_right hnl)
      rw [hcongr]
      exact (bf_candidates_upper_counts c (sh1 % 26) (sh2 % 26)).2.1
  · by_cases hl : is_lower c = true
    · rw [bf_cands_lower hl]
      have hcongr : (bf_candidates_lower c (sh1 % 26) (sh2 % 26)).filter
          (fun p => classify_plain p = "L2" ∨ classify_plain p = "U2") =
          (bf_candidates_lower c (sh1 % 26) (sh2 % 26)).filter
          (fun p => classify_plain p = "L2") := by
        refine List.filter_congr ?_
        intro p hp
        have hpl : is_lower p = true :=
          is_lower_iff.mpr (mem_lower_alphabet.mp (List.mem_of_mem_filter hp))
        have hnu : ¬(classify_plain p = "U2") := by
          intro hq
          have := classify_eq_U2.mp hq
          have := is_lower_iff.mp hpl
          omega
        exact decide_eq_decide.mpr (or_iff_left hnu)
      rw [hcongr]
      exact (bf_candidates_lower_counts c (sh1 % 26) (sh2 % 26)).2.2
    · have hu : is_upper c = true := h.resolve_left hl
      rw [bf_cands_upper hu]
      have hcongr : (bf_candidates_upper c (sh1 % 26) (sh2 % 26)).filter
          (fun p => classify_plain p = "L2" ∨ classify_plain p = "U2") =
          (bf_candidates_upper c (sh1 % 26) (sh2 % 26)).filter
          (fun p => classify_plain p = "U2") := by
        refine List.filter_congr ?_
        intro p hp
        have hpu : is_upper p = true :=
          is_upper_iff.mpr (mem_upper_alphabet.mp (List.mem_of_mem_filter hp))
        have hnl : ¬(classify_plain p = "L2") := by
          intro hq
          have := classify_eq_L2.mp hq
          have := is_upper_iff.mp hpu
          omega
        exact decide_eq_decide.mpr (or_iff_right hnl)
      rw [hcongr]
      exact (bf_candidates_upper_counts c (sh1 % 26) (sh2 % 26)).2.2

/-- Witness for C10 at `c = 'm'`, shifts `1, 0`, `enc = "mz"`. -/
theorem candidate_count_bounds_witness :
    (is_lower 'm' = true ∨ is_upper 'm' = true) ∧
    ((bf_cands (1 % 26) (0 % 26) 'm').length ≤ 2 ∧
     ((bf_cands (1 % 26) (0 % 26) 'm').filter fun p =>
       classify_plain p = "L1" ∨ classify_plain p = "U1").length ≤ 1 ∧
     ((bf_cands (1 % 26) (0 % 26) 'm').filter fun p =>
       classify_plain p = "L2" ∨ classify_plain p = "U2").length ≤ 1 ∧
     List.Pairwise (· < ·) (bf_cands (1 % 26) (0 % 26) 'm') ∧
     ((brute_force_decrypt ('m' :: 'z' :: []) 1 0).2.all fun r =>
       decide (r.2.2.length = 0 ∨ r.2.2.length = 2)) = true) :=
  ⟨by decide, candidate_count_bounds 'm' 1 0 ('m' :: 'z' :: []) (by decide)⟩

end Cipher
